import Mathlib

/-!
Verification of `nodes/DocxDiff/DocxDiff.node.ts` (the DOCX track-diff core).

The TypeScript source is shallowly embedded below:

* JavaScript strings are `String`; character classes (`\s`, `\b` of the
  tokenizer regex, `trim()`) are modelled by explicit character predicates
  matching the ECMAScript definitions.
* The attributed trees produced by the XML codec (`fast-xml-parser` with
  `preserveOrder:false`, `removeNSPrefix:true`, `attributeNamePrefix:''`)
  are modelled by the JSON-like type `JVal` (mutually inductive with its
  array and object-field spines `JList`/`JFields`), together with the
  JavaScript notions of truthiness, property access and nullish
  coalescing used by the source.
* The external libraries (JSZip, the XML parser/builder) are modelled as
  injective constructors: a zip is a list of entries whose data is either
  an already-parsed tree or a marker that parsing the part's text throws;
  the output buffer keeps the built trees and raw strings un-serialized.
* `nowIso()` (the wall clock) is threaded through as an explicit `now`
  argument.
* The LCS dynamic program and its backtracking loop are written with a
  structural fuel argument (`fuel = |A| + |B|`, exactly the number of loop
  steps available to the source's backtracking loop) so that every
  definition kernel-evaluates; fuel-independence is proved and recurrence
  equations re-established as lemmas.
-/

/-! ## JavaScript character classes and string helpers -/

/-- The ECMAScript `\s` class (WhiteSpace ∪ LineTerminator), as used by the
tokenizer regex `/(\s+|\b)/` and by `String.prototype.trim`. -/
def isJsSpace (c : Char) : Bool :=
  c == ' ' || c == '\t' || c == '\n' || c == '\r' || c == '\x0b' || c == '\x0c' ||
  c == '\u00A0' || c == '\u1680' || (0x2000 ≤ c.toNat && c.toNat ≤ 0x200a) ||
  c == '\u2028' || c == '\u2029' || c == '\u202F' || c == '\u205F' || c == '\u3000' ||
  c == '\uFEFF'

/-- The ECMAScript `\w` class `[A-Za-z0-9_]`, the word characters whose
boundaries the `\b` of the tokenizer regex detects. -/
def isWordChar (c : Char) : Bool :=
  (97 ≤ c.toNat && c.toNat ≤ 122) || (65 ≤ c.toNat && c.toNat ≤ 90) ||
  (48 ≤ c.toNat && c.toNat ≤ 57) || c.toNat == 95

/-- Character class under the split regex `/(\s+|\b)/`: whitespace (0),
word (1), other (2).  A split point of the regex falls exactly between two
adjacent characters of different classes. -/
def charClass (c : Char) : Nat :=
  if isJsSpace c then 0 else if isWordChar c then 1 else 2

/-- `String.prototype.trim`: surrounding (leading and trailing) whitespace
removed, internal whitespace untouched. -/
def jsTrim (s : String) : String :=
  String.mk (((s.toList.dropWhile isJsSpace).reverse.dropWhile isJsSpace).reverse)

/-- Concatenation of a token list, in order (`concat` of the spec). -/
def concatStrings : List String → String
  | [] => ""
  | s :: tl => s ++ concatStrings tl

/-- `needle.isPrefixOf`-based scan for `String.prototype.includes`. -/
def containsSeq (sub : List Char) : List Char → Bool
  | [] => sub.isEmpty
  | c :: tl => sub.isPrefixOf (c :: tl) || containsSeq sub tl

/-- `s.includes(sub)` of JavaScript. -/
def strIncludes (s sub : String) : Bool := containsSeq sub.toList s.toList

/-! ## The attributed tree model (`fast-xml-parser` output, JSON-like) -/

mutual
/-- A JavaScript value as produced by the XML parser with
`preserveOrder:false`: `null`, booleans, numbers, strings, arrays and
plain objects (ordered field lists).  `undefined` results of property
access are modelled by `Option` at use sites. -/
inductive JVal where
  | null
  | bool (b : Bool)
  | num (n : Int)
  | str (s : String)
  | arr (xs : JList)
  | obj (fs : JFields)
/-- Spine of a JavaScript array of `JVal`. -/
inductive JList where
  | nil
  | cons (hd : JVal) (tl : JList)
/-- Spine of a JavaScript object: ordered `key ↦ value` fields. -/
inductive JFields where
  | nil
  | cons (key : String) (val : JVal) (tl : JFields)
end

/-- First field with the given key, if any (JavaScript property lookup on
an object; object keys produced by the parser are unique). -/
def JFields.get? : JFields → String → Option JVal
  | .nil, _ => none
  | .cons key val tl, k => if key == k then some val else tl.get? k

/-- `v[k]` of JavaScript: a field of an object, `undefined` (`none`)
otherwise. -/
def getKey (v : JVal) (k : String) : Option JVal :=
  match v with
  | .obj fs => fs.get? k
  | _ => none

/-- JavaScript truthiness. -/
def truthy : JVal → Bool
  | .null => false
  | .bool b => b
  | .num n => n != 0
  | .str s => s != ""
  | .arr _ => true
  | .obj _ => true

/-- Truthiness of a possibly-`undefined` value. -/
def truthyOpt : Option JVal → Bool
  | none => false
  | some v => truthy v

/-- `a || b` of JavaScript over possibly-`undefined` values: the first
operand when truthy, otherwise the second. -/
def jsOrV (a b : Option JVal) : Option JVal := if truthyOpt a then a else b

/-- `a ?? b` support: `none` also for present-but-`null` (nullish). -/
def nullish : Option JVal → Option JVal
  | some .null => none
  | o => o

/-- Build object fields from a list literal. -/
def jfieldsOf : List (String × JVal) → JFields
  | [] => .nil
  | (k, v) :: tl => .cons k v (jfieldsOf tl)

/-- Build an object from a field-list literal. -/
def jobj (l : List (String × JVal)) : JVal := .obj (jfieldsOf l)

/-- Build an array spine from a list literal. -/
def jlistOf : List JVal → JList
  | [] => .nil
  | v :: tl => .cons v (jlistOf tl)

/-- Build an array from a list literal. -/
def jarr (l : List JVal) : JVal := .arr (jlistOf l)

/-- Array spine back to a `List` for index-based processing. -/
def JList.toL : JList → List JVal
  | .nil => []
  | .cons v tl => v :: tl.toL

/-! ## Tokenizer (`tokenizeWords`, source lines 93–95)

`text.split(/(\s+|\b)/).filter((s) => s !== '')`: the regex splits at
every whitespace run (captured, hence kept) and at every word boundary
(zero-width, captured as `''` and then filtered away).  The surviving
pieces are exactly the maximal runs of characters of equal `charClass`:
a boundary between a whitespace and a non-whitespace character is consumed
by the `\s+` capture, one between a word and an `other` character by `\b`,
and no split point falls inside a run of a single class. -/

/-- Maximal runs of characters of equal `charClass`, in order. -/
def splitRuns : List Char → List (List Char)
  | [] => []
  | c :: cs =>
    match splitRuns cs with
    | [] => [[c]]
    | [] :: gs => [c] :: [] :: gs
    | (d :: ds) :: gs =>
      if charClass c == charClass d then (c :: d :: ds) :: gs
      else [c] :: (d :: ds) :: gs

/-- `tokenizeWords(text)` of the source. -/
def tokenizeWords (text : String) : List String :=
  (splitRuns text.toList).map (fun g => String.mk g)

/-- The two diff granularities of `Options`. -/
inductive Granularity where
  | word
  | char
deriving DecidableEq

/-- Token sequence for a paragraph text:
`options.granularity === 'char' ? a.split('') : tokenizeWords(a)`
(source lines 159–160). -/
def tokenize (text : String) : Granularity → List String
  | .char => text.toList.map (fun c => String.mk [c])
  | .word => tokenizeWords text

/-! ## Sequence differ (`diffTokens`, source lines 97–115)

The source fills `dp[i][j] = LCS length of a[i:] and b[j:]` bottom-up and
then backtracks from `(0,0)`, emitting `eq` on a match, otherwise `del`
when `dp[i+1][j] >= dp[i][j+1]` and `ins` otherwise, then flushing the
remaining tails.  Both are written on suffix lists; the backtracking loop
runs at most `|A| + |B|` steps, which is taken as structural fuel (the
zero-fuel arm with both lists nonempty is unreachable for that choice,
see `lcsLenGo_fuel` / `diffTokensGo_fuel`). -/

/-- An edit operation of the script: `{type: 'eq'|'ins'|'del', value}`. -/
inductive Op where
  | eq (value : String)
  | ins (value : String)
  | del (value : String)
deriving DecidableEq

/-- `dp[i][j]` of the source as a function of the suffixes `a[i:]`, `b[j:]`,
with structural fuel. -/
def lcsLenGo (fuel : Nat) (a b : List String) : Nat :=
  match a, b with
  | [], _ => 0
  | _ :: _, [] => 0
  | x :: as, y :: bs =>
    match fuel with
    | 0 => 0
    | Nat.succ fuel =>
      if x = y then lcsLenGo fuel as bs + 1
      else max (lcsLenGo fuel as (y :: bs)) (lcsLenGo fuel (x :: as) bs)

/-- The LCS table entry `dp[i][j]` for suffixes `a`, `b`. -/
def lcsLen (a b : List String) : Nat := lcsLenGo (a.length + b.length) a b

/-- The backtracking loop of `diffTokens` with structural fuel. -/
def diffTokensGo (fuel : Nat) (a b : List String) : List Op :=
  match a, b with
  | [], bs => bs.map (fun v => Op.ins v)
  | x :: as, [] => (x :: as).map (fun v => Op.del v)
  | x :: as, y :: bs =>
    match fuel with
    | 0 => []
    | Nat.succ fuel =>
      if x = y then Op.eq x :: diffTokensGo fuel as bs
      else if lcsLen as (y :: bs) ≥ lcsLen (x :: as) bs then
        Op.del x :: diffTokensGo fuel as (y :: bs)
      else Op.ins y :: diffTokensGo fuel (x :: as) bs

/-- `diffTokens(a, b)` of the source. -/
def diffTokens (a b : List String) : List Op :=
  diffTokensGo (a.length + b.length) a b

/-- Number of `eq` operations of an edit script. -/
def countEq : List Op → Nat
  | [] => 0
  | .eq _ :: tl => countEq tl + 1
  | .ins _ :: tl => countEq tl
  | .del _ :: tl => countEq tl

/-- The `eq`/`del` subsequence of an edit script (tokens consumed from the
base sequence), in order. -/
def baseTokens : List Op → List String
  | [] => []
  | .eq v :: tl => v :: baseTokens tl
  | .del v :: tl => v :: baseTokens tl
  | .ins _ :: tl => baseTokens tl

/-- The `eq`/`ins` subsequence of an edit script (tokens consumed from the
revised sequence), in order. -/
def revTokens : List Op → List String
  | [] => []
  | .eq v :: tl => v :: revTokens tl
  | .ins v :: tl => v :: revTokens tl
  | .del _ :: tl => revTokens tl

/-! ## Run synthesizer (`buildInsRuns`/`buildDelRuns`/`mergeRuns`,
source lines 117–141) -/

/-- `buildInsRuns(text, author, id)` with `nowIso()` passed explicitly:
`{ ins: { id, author, date, r: [{ t: { '@_xml:space': 'preserve', '#text': text } }] } }`. -/
def buildInsRuns (text author : String) (id : Nat) (now : String) : JVal :=
  jobj [("ins", jobj [
    ("id", .str (toString id)), ("author", .str author), ("date", .str now),
    ("r", jarr [jobj [("t", jobj [("@_xml:space", .str "preserve"),
                                  ("#text", .str text)])]])])]

/-- `buildDelRuns(text, author, id)`: as `buildInsRuns` but tagged `del`
with a `delText` leaf. -/
def buildDelRuns (text author : String) (id : Nat) (now : String) : JVal :=
  jobj [("del", jobj [
    ("id", .str (toString id)), ("author", .str author), ("date", .str now),
    ("r", jarr [jobj [("delText", jobj [("@_xml:space", .str "preserve"),
                                        ("#text", .str text)])]])])]

/-- The plain run pushed for an `eq` token:
`{ r: { t: { '@_xml:space': 'preserve', '#text': value } } }`. -/
def plainRunWrap (value : String) : JVal :=
  jobj [("r", jobj [("t", jobj [("@_xml:space", .str "preserve"),
                                ("#text", .str value)])])]

/-- The `flush()` closure of `mergeRuns`: a pending deletion buffer is
emitted before a pending insertion buffer, ids advancing. -/
def flushRuns (author now insBuf delBuf : String) (nextId : Nat) :
    List JVal × Nat :=
  let (delPart, id1) :=
    if delBuf == "" then ([], nextId)
    else ([buildDelRuns delBuf author nextId now], nextId + 1)
  let (insPart, id2) :=
    if insBuf == "" then ([], id1)
    else ([buildInsRuns insBuf author id1 now], id1 + 1)
  (delPart ++ insPart, id2)

/-- The loop of `mergeRuns`: `eq` flushes the buffers and emits a plain
run; `ins`/`del` extend their buffers. -/
def mergeRunsGo (author now : String) :
    List Op → String → String → Nat → List JVal
  | [], insBuf, delBuf, nextId => (flushRuns author now insBuf delBuf nextId).1
  | .eq v :: rest, insBuf, delBuf, nextId =>
    let fl := flushRuns author now insBuf delBuf nextId
    fl.1 ++ plainRunWrap v :: mergeRunsGo author now rest "" "" fl.2
  | .ins v :: rest, insBuf, delBuf, nextId =>
    mergeRunsGo author now rest (insBuf ++ v) delBuf nextId
  | .del v :: rest, insBuf, delBuf, nextId =>
    mergeRunsGo author now rest insBuf (delBuf ++ v) nextId

/-- `mergeRuns(ops, author)` of the source (ids start at 1, buffers empty). -/
def mergeRuns (ops : List Op) (author now : String) : List JVal :=
  mergeRunsGo author now ops "" "" 1

/-! ## Paragraph model (`paragraphText`, source lines 143–151) -/

/-- Text contributed by one run object: `r.t` when it is a string, else
`r.t['#text']` when `r.t` is truthy and that slot is a string. -/
def runText (r : JVal) : String :=
  match getKey r "t" with
  | some (.str t) => t
  | some tv =>
    if truthy tv then
      match getKey tv "#text" with
      | some (.str t2) => t2
      | _ => ""
    else ""
  | none => ""

/-- The run loop of `paragraphText`, concatenating in run order. -/
def textOfRuns : JList → String
  | .nil => ""
  | .cons r tl => runText r ++ textOfRuns tl

/-- `paragraphText(p)`:
`Array.isArray(p.r) ? p.r : p.r ? [p.r] : []`, then concatenate run texts. -/
def paragraphText (p : JVal) : String :=
  let runs : JList :=
    match getKey p "r" with
    | some (.arr xs) => xs
    | some v => if truthy v then .cons v .nil else .nil
    | none => .nil
  textOfRuns runs

/-! ## Paragraph differ (`diffParagraph`, source lines 153–166) -/

/-- Resource limit configuration (`ResourceLimits` of the source). -/
structure ResourceLimits where
  maxTotalUnzippedBytes : Nat
  maxEntries : Nat
  maxEntrySize : Nat
  maxTokensPerParagraph : Nat

/-- `defaultLimits` of the source. -/
def defaultLimits : ResourceLimits :=
  { maxTotalUnzippedBytes := 50 * 1024 * 1024
    maxEntries := 2000
    maxEntrySize := 5 * 1024 * 1024
    maxTokensPerParagraph := 4000 }

/-- The `existingTrackedRevisions` policy. -/
inductive TrackedPolicy where
  | ignore
  | fail
deriving DecidableEq

/-- `Options` of the source. -/
structure Options where
  granularity : Granularity
  suppressWhitespaceOnly : Bool
  includeLists : Bool
  includeTables : Bool
  includeTextBoxes : Bool
  includeHeadersFooters : Bool
  existingTrackedRevisions : TrackedPolicy
  limits : ResourceLimits

/-- `x.r ?? x.ins ?? x.del` applied to each synthesized run before it is
stored on the output paragraph (source line 164): the value of the first
non-nullish of the three properties.  (For an `ins`/`del` run this is the
wrapper's inner content, so the `ins`/`del` tag itself is dropped here.) -/
def coalesceRun (x : JVal) : JVal :=
  match nullish (getKey x "r") with
  | some v => v
  | none =>
    match nullish (getKey x "ins") with
    | some v => v
    | none =>
      match nullish (getKey x "del") with
      | some v => v
      | none => .null

/-- Map `coalesceRun` over the synthesized run list, producing the `r`
array spine of the output paragraph. -/
def coalesceRuns : List JVal → JList
  | [] => .nil
  | x :: tl => .cons (coalesceRun x) (coalesceRuns tl)

/-- Does a field list carry the given key? -/
def JFields.hasFieldKey : JFields → String → Bool
  | .nil, _ => false
  | .cons key _ tl, k => key == k || tl.hasFieldKey k

/-- Replace the value of every field with the given key (object keys
produced by the parser are unique, so this is the single field). -/
def JFields.setFieldKey : JFields → String → JVal → JFields
  | .nil, _, _ => .nil
  | .cons key val tl, k, v =>
    .cons key (if key == k then v else val) (tl.setFieldKey k v)

/-- Append a field at the end. -/
def JFields.appendFieldKey : JFields → String → JVal → JFields
  | .nil, k, v => .cons k v .nil
  | .cons key val tl, k, v => .cons key val (tl.appendFieldKey k v)

/-- `const pOut = { ...revP, r: undefined }; pOut.r = runs…` — the spread
copies the fields of `revP` in order, and the assignment stores the new
run array at the original position of `r` (spread keeps the first
position for an existing key) or appends it.  A non-object `revP` yields
an object holding only `r` (paragraphs reaching this point are objects;
string spreads of index keys are not modelled). -/
def spreadSetR (revP : JVal) (v : JVal) : JVal :=
  match revP with
  | .obj fs =>
    if fs.hasFieldKey "r" then .obj (fs.setFieldKey "r" v)
    else .obj (fs.appendFieldKey "r" v)
  | _ => .obj (.cons "r" v .nil)

/-- `diffParagraph(baseP, revP, author, options)` with `nowIso()` passed
explicitly. -/
def diffParagraph (baseP revP : JVal) (author : String) (options : Options)
    (now : String) : JVal :=
  let a := paragraphText baseP
  let b := paragraphText revP
  if options.suppressWhitespaceOnly && (jsTrim a == jsTrim b) then revP
  else
    let tokensA := tokenize a options.granularity
    let tokensB := tokenize b options.granularity
    let ops := diffTokens tokensA tokensB
    let runs := mergeRuns ops author now
    spreadSetR revP (.arr (coalesceRuns runs))

/-! ## Revision stripper (`stripTrackedChanges`, source lines 78–91)

`if (node.ins || node.del || node.moveFrom || node.moveTo)` picks the
first truthy of the four wrapper properties as `content` and returns
`{ r: content.r }` when `content.r` is an array, otherwise `content`
itself — without recursing into it.  Every other object or array is
rebuilt field by field: array-valued children are mapped over with the
stripper, object children are stripped in place, primitives pass
through (`stripTrackedChanges(null)` returns `null` at once). -/

/-- `node.ins || node.del || node.moveFrom || node.moveTo`. -/
def wrapperContent (fs : JFields) : Option JVal :=
  jsOrV (fs.get? "ins") (jsOrV (fs.get? "del")
    (jsOrV (fs.get? "moveFrom") (fs.get? "moveTo")))

mutual
/-- `stripTrackedChanges(node)` of the source. -/
def stripTrackedChanges : JVal → JVal
  | .obj fs =>
    (match wrapperContent fs with
     | some content =>
       if truthy content then
         match getKey content "r" with
         | some (.arr rs) => JVal.obj (.cons "r" (.arr rs) .nil)
         | _ => content
       else JVal.obj (stripFields fs)
     | none => JVal.obj (stripFields fs))
  | .arr xs => .arr (stripElems xs)
  | v => v
/-- The `Object.keys` loop over the fields of a non-wrapper object. -/
def stripFields : JFields → JFields
  | .nil => .nil
  | .cons k v tl => .cons k (stripChildVal v) (stripFields tl)
/-- One child: `Array.isArray(v) ? v.map(strip) : typeof v === 'object' ?
strip(v) : v` (the object case repeats the wrapper test of
`stripTrackedChanges`; `strip(null)` is `null`). -/
def stripChildVal : JVal → JVal
  | .arr xs => .arr (stripMap xs)
  | .obj fs =>
    (match wrapperContent fs with
     | some content =>
       if truthy content then
         match getKey content "r" with
         | some (.arr rs) => JVal.obj (.cons "r" (.arr rs) .nil)
         | _ => content
       else JVal.obj (stripFields fs)
     | none => JVal.obj (stripFields fs))
  | v => v
/-- The `Object.keys` loop over the index keys of an array node. -/
def stripElems : JList → JList
  | .nil => .nil
  | .cons v tl => .cons (stripChildVal v) (stripElems tl)
/-- `v.map(stripTrackedChanges)` for an array-valued child. -/
def stripMap : JList → JList
  | .nil => .nil
  | .cons v tl => .cons (stripTrackedChanges v) (stripMap tl)
end

/-! ## Markup predicates (for stating the claims) -/

mutual
/-- Does the given key occur as a field name anywhere in the tree? -/
def hasKeyDeep (k : String) : JVal → Bool
  | .obj fs => hasKeyDeepFields k fs
  | .arr xs => hasKeyDeepList k xs
  | _ => false
/-- `hasKeyDeep` over an array spine. -/
def hasKeyDeepList (k : String) : JList → Bool
  | .nil => false
  | .cons v tl => hasKeyDeep k v || hasKeyDeepList k tl
/-- `hasKeyDeep` over object fields. -/
def hasKeyDeepFields (k : String) : JFields → Bool
  | .nil => false
  | .cons key v tl => key == k || hasKeyDeep k v || hasKeyDeepFields k tl
end

/-- Insertion/deletion markup anywhere in a tree: an `ins` or `del`
wrapper field or a `delText` leaf element. -/
def hasTrackedMarkup (v : JVal) : Bool :=
  hasKeyDeep "ins" v || hasKeyDeep "del" v || hasKeyDeep "delText" v

/-- Is this object a tracked-change wrapper in the sense of the stripper's
test (a truthy `ins`/`del`/`moveFrom`/`moveTo` property)? -/
def isWrapper (fs : JFields) : Bool := truthyOpt (wrapperContent fs)

mutual
/-- A wrapper node (per `isWrapper`) anywhere in the tree. -/
def hasWrapper : JVal → Bool
  | .obj fs => isWrapper fs || hasWrapperFields fs
  | .arr xs => hasWrapperList xs
  | _ => false
/-- `hasWrapper` over an array spine. -/
def hasWrapperList : JList → Bool
  | .nil => false
  | .cons v tl => hasWrapper v || hasWrapperList tl
/-- `hasWrapper` over object field values. -/
def hasWrapperFields : JFields → Bool
  | .nil => false
  | .cons _ v tl => hasWrapper v || hasWrapperFields tl
end

mutual
/-- No wrapper node of the tree has another wrapper inside the content the
stripper would promote for it: the nesting discipline under which the
one-pass stripper reaches every wrapper. -/
def okNesting : JVal → Bool
  | .obj fs =>
    (match wrapperContent fs with
     | some content =>
       if truthy content then !hasWrapper content else okNestingFields fs
     | none => okNestingFields fs)
  | .arr xs => okNestingList xs
  | _ => true
/-- `okNesting` over an array spine. -/
def okNestingList : JList → Bool
  | .nil => true
  | .cons v tl => okNesting v && okNestingList tl
/-- `okNesting` over object field values. -/
def okNestingFields : JFields → Bool
  | .nil => true
  | .cons _ v tl => okNesting v && okNestingFields tl
end

/-! ## `JSON.stringify` (used by the tracked-revisions pre-check) -/

/-- One JSON-escaped character. -/
def jsonEscChar (c : Char) : String :=
  if c == '"' then "\\\""
  else if c == '\\' then "\\\\"
  else if c == '\n' then "\\n"
  else if c == '\r' then "\\r"
  else if c == '\t' then "\\t"
  else if c == '\x08' then "\\b"
  else if c == '\x0c' then "\\f"
  else String.mk [c]

/-- JSON string escaping (control characters other than the named ones are
left as-is; no claim depends on them). -/
def jsonEscape (s : String) : String :=
  concatStrings (s.toList.map jsonEscChar)

mutual
/-- `JSON.stringify` over the tree model. -/
def jsonStringify : JVal → String
  | .null => "null"
  | .bool b => if b then "true" else "false"
  | .num n => toString n
  | .str s => "\"" ++ jsonEscape s ++ "\""
  | .arr xs => "[" ++ jsonStringifyList xs ++ "]"
  | .obj fs => "\x7b" ++ jsonStringifyFields fs ++ "\x7d"
/-- Comma-joined array elements. -/
def jsonStringifyList : JList → String
  | .nil => ""
  | .cons v .nil => jsonStringify v
  | .cons v tl => jsonStringify v ++ "," ++ jsonStringifyList tl
/-- Comma-joined object fields. -/
def jsonStringifyFields : JFields → String
  | .nil => ""
  | .cons k v .nil => "\"" ++ jsonEscape k ++ "\":" ++ jsonStringify v
  | .cons k v tl =>
    "\"" ++ jsonEscape k ++ "\":" ++ jsonStringify v ++ "," ++
      jsonStringifyFields tl
end

/-! ## Archive gateway and package model
(`safeLoadDocx`, source lines 65–76; output assembly, lines 228–268) -/

/-- The data of one zip entry: its parse outcome for the XML parser — a
parsed tree, or a marker that `parser.parse` throws on its text. -/
inductive PartData where
  | xmlOk (t : JVal)
  | malformed

/-- One entry of a zip archive, with the compressed size the gateway's
heuristic reads (`(f as any)._data?.compressedSize || 0`). -/
structure ZipEntry where
  path : String
  compressedSize : Nat
  data : PartData

/-- A loaded zip archive (`JSZip` object): its entry list. -/
structure Zip where
  files : List ZipEntry

/-- An input byte buffer: a well-formed zip, or a container on which
`JSZip.loadAsync` rejects with the given message. -/
inductive Buffer where
  | zip (z : Zip)
  | corrupt (msg : String)

/-- `JSZip.loadAsync(buf)`. -/
def loadAsync : Buffer → Except String Zip
  | .zip z => .ok z
  | .corrupt m => .error m

/-- The compressed-size loop of `safeLoadDocx`: a running sum of entry
compressed sizes, failing as soon as it exceeds
`2 × maxTotalUnzippedBytes`. -/
def approxSizeCheck (cap : Nat) : List ZipEntry → Nat → Except String Unit
  | [], _ => .ok ()
  | f :: tl, approxTotal =>
    let approxTotal := approxTotal + f.compressedSize
    if approxTotal > cap * 2 then .error "DOCX likely exceeds unzip cap"
    else approxSizeCheck cap tl approxTotal

/-- `safeLoadDocx(buf, limits, warnings)` of the source (the `warnings`
parameter is never written by the source and is omitted): entry count
against `maxEntries`, then the approximate-size pre-check.
`maxEntrySize` is not consulted. -/
def safeLoadDocx (buf : Buffer) (limits : ResourceLimits) :
    Except String Zip :=
  match loadAsync buf with
  | .error e => .error e
  | .ok zip =>
    if zip.files.length > limits.maxEntries then .error "DOCX too many entries"
    else
      match approxSizeCheck limits.maxTotalUnzippedBytes zip.files 0 with
      | .error e => .error e
      | .ok _ => .ok zip

/-- `DiffInput` of the source. -/
structure DiffInput where
  base : Buffer
  revised : Buffer
  author : String
  options : Options

/-- One entry of the produced package: a raw string part or a built
(serialized) tree part.  The XML builder and zip writer are injective
constructors here. -/
inductive ZipContent where
  | raw (s : String)
  | builtXml (t : JVal)

/-- `DiffResult` of the source: output package and warnings. -/
structure DiffResult where
  buffer : List (String × ZipContent)
  warnings : List String

/-- `loadXml(z, path)` of the source with the `warnings` accumulator made
explicit: absent part → `null`; text that fails to parse → warning
`Malformed {path}; using raw fallback` and `null`; otherwise the tree. -/
def loadXml (z : Zip) (path : String) (warnings : List String) :
    Option JVal × List String :=
  match z.files.find? (fun f => f.path == path) with
  | none => (none, warnings)
  | some f =>
    match f.data with
    | .xmlOk t => (some t, warnings)
    | .malformed =>
      (none, warnings ++ ["Malformed " ++ path ++ "; using raw fallback"])

/-- Paragraph-array extraction (source lines 200–205):
`Array.isArray(x.document?.body?.p) ? … : x ? [x] : []`. -/
def getParas (doc : JVal) : List JVal :=
  let popt :=
    ((getKey doc "document").bind (fun d => getKey d "body")).bind
      (fun b => getKey b "p")
  match popt with
  | some (.arr xs) => xs.toL
  | some v => if truthy v then [v] else []
  | none => []

/-- `buildInsRuns(text, author, i+1).ins.r[0]` (source line 214): the
first inner run of the freshly built insertion wrapper — a plain `t` run;
the `ins` wrapper itself is discarded by the indexing. -/
def insParaRun (text author : String) (id : Nat) (now : String) : JVal :=
  match getKey (buildInsRuns text author id now) "ins" with
  | some c =>
    (match getKey c "r" with
     | some (.arr (.cons r0 _)) => r0
     | _ => .null)
  | none => .null

/-- `buildDelRuns(text, author, i+1).del.r[0]` (source line 219): the
first inner run of the freshly built deletion wrapper — a `delText` run
without its `del` wrapper. -/
def delParaRun (text author : String) (id : Nat) (now : String) : JVal :=
  match getKey (buildDelRuns text author id now) "del" with
  | some c =>
    (match getKey c "r" with
     | some (.arr (.cons r0 _)) => r0
     | _ => .null)
  | none => .null

/-- The body of the paragraph-alignment loop (source lines 209–226) at
index `i`: revised-only → a paragraph holding the extracted insertion
run; base-only → a paragraph holding the extracted deletion run; both
present → `diffParagraph`; neither (both falsy) → nothing pushed. -/
def alignParaAt (baseParas revParas : List JVal) (author : String)
    (options : Options) (now : String) (i : Nat) : Option JVal :=
  let bp := baseParas.getD i .null
  let rp := revParas.getD i .null
  if !truthy bp && truthy rp then
    some (jobj [("p", jobj [("r",
      .arr (.cons (insParaRun (paragraphText rp) author (i + 1) now) .nil))])])
  else if truthy bp && !truthy rp then
    some (jobj [("p", jobj [("r",
      .arr (.cons (delParaRun (paragraphText bp) author (i + 1) now) .nil))])])
  else if truthy bp && truthy rp then
    some (jobj [("p", diffParagraph bp rp author options now)])
  else none

/-- The fixed `[Content_Types].xml` text of the output package. -/
def contentTypesXml : String :=
  "<?xml version=\"1.0\" encoding=\"UTF-8\" standalone=\"yes\"?>\n<Types xmlns=\"http://schemas.openxmlformats.org/package/2006/content-types\">\n  <Default Extension=\"rels\" ContentType=\"application/vnd.openxmlformats-package.relationships+xml\"/>\n  <Default Extension=\"xml\" ContentType=\"application/xml\"/>\n  <Override PartName=\"/word/document.xml\" ContentType=\"application/vnd.openxmlformats-officedocument.wordprocessingml.document.main+xml\"/>\n  <Override PartName=\"/word/settings.xml\" ContentType=\"application/vnd.openxmlformats-officedocument.wordprocessingml.settings+xml\"/>\n</Types>"

/-- The fixed `_rels/.rels` text of the output package. -/
def relsRelsXml : String :=
  "<?xml version=\"1.0\" encoding=\"UTF-8\" standalone=\"yes\"?>\n<Relationships xmlns=\"http://schemas.openxmlformats.org/package/2006/relationships\">\n  <Relationship Id=\"rId1\" Type=\"http://schemas.openxmlformats.org/officeDocument/2006/relationships/officeDocument\" Target=\"word/document.xml\"/>\n</Relationships>"

/-- The settings tree (`trackRevisions` enabled) built for
`word/settings.xml`. -/
def settingsTree : JVal :=
  jobj [("settings", jobj [
    ("@_xmlns:w", .str "http://schemas.openxmlformats.org/wordprocessingml/2006/main"),
    ("trackRevisions", jobj [])])]

/-- `docxDiffTracked(input)` of the source, with `nowIso()` passed
explicitly.  Fatal paths are `Except.error` with the source's message;
the output buffer keeps the four parts in the order the source writes
them. -/
def docxDiffTracked (now : String) (input : DiffInput) :
    Except String DiffResult :=
  let limits := input.options.limits
  match safeLoadDocx input.base limits, safeLoadDocx input.revised limits with
  | .error e, _ => .error ("Failed to read DOCX: " ++ e)
  | .ok _, .error e => .error ("Failed to read DOCX: " ++ e)
  | .ok baseZip, .ok revZip =>
    let loaded1 := loadXml baseZip "word/document.xml" []
    let loaded2 := loadXml revZip "word/document.xml" loaded1.2
    match loaded1.1, loaded2.1 with
    | some bd, some rd =>
      if input.options.existingTrackedRevisions == .fail &&
          (strIncludes (jsonStringify rd) "ins" ||
           strIncludes (jsonStringify rd) "del") then
        .error "Revised document contains tracked revisions"
      else
        let cleanBase := stripTrackedChanges bd
        let cleanRev := stripTrackedChanges rd
        let baseParas := getParas cleanBase
        let revParas := getParas cleanRev
        let maxLen := max baseParas.length revParas.length
        let outParas := (List.range maxLen).filterMap
          (alignParaAt baseParas revParas input.author input.options now)
        let docOut := jobj [("document", jobj [
          ("@_xmlns:w",
            .str "http://schemas.openxmlformats.org/wordprocessingml/2006/main"),
          ("body", jobj [
            ("p", .arr (jlistOf (outParas.map
              (fun x => (getKey x "p").getD .null)))),
            ("sectPr", jobj [])])])]
        .ok { buffer := [
                ("[Content_Types].xml", .raw contentTypesXml),
                ("_rels/.rels", .raw relsRelsXml),
                ("word/document.xml", .builtXml docOut),
                ("word/settings.xml", .builtXml settingsTree)]
              warnings := loaded2.2 }
    | _, _ => .error "Missing word/document.xml in one of the DOCX files"

/-- The paragraph list of the produced `word/document.xml` tree (observer
for stating claims about the output package). -/
def outputParas (r : Except String DiffResult) : List JVal :=
  match r with
  | .error _ => []
  | .ok res =>
    match res.buffer.find? (fun e => e.1 == "word/document.xml") with
    | some (_, .builtXml t) => getParas t
    | _ => []

/-! ## Observers and concrete fixtures used by the statements -/

/-- The plain inner run the differ stores for one equal token after
`x.r ?? x.ins ?? x.del` (source line 164). -/
def plainInnerRun (value : String) : JVal :=
  jobj [("t", jobj [("@_xml:space", .str "preserve"), ("#text", .str value)])]

/-- Number of runs of a paragraph under the `paragraphText`
normalization: an array `r` counts its elements, a single truthy `r`
counts one. -/
def runCount (p : JVal) : Nat :=
  match getKey p "r" with
  | some (.arr xs) => xs.toL.length
  | some v => if truthy v then 1 else 0
  | none => 0

/-- Default node options: word granularity, whitespace suppression on,
`existingTrackedRevisions: ignore`, `defaultLimits`. -/
def defaultOptions : Options :=
  { granularity := .word
    suppressWhitespaceOnly := true
    includeLists := true
    includeTables := true
    includeTextBoxes := true
    includeHeadersFooters := false
    existingTrackedRevisions := .ignore
    limits := defaultLimits }

/-- A one-run paragraph with the given text. -/
def paraOf (t : String) : JVal := jobj [("r", jarr [jobj [("t", .str t)]])]

/-- A document tree whose body holds the given paragraphs. -/
def docOf (ps : List JVal) : JVal :=
  jobj [("document", jobj [("body", jobj [("p", jarr ps)])])]

/-- A one-entry DOCX whose `word/document.xml` parses to the given tree. -/
def zipOf (d : JVal) : Buffer :=
  .zip { files := [{ path := "word/document.xml", compressedSize := 100,
                     data := .xmlOk d }] }

/-- A one-entry DOCX whose `word/document.xml` text fails to parse. -/
def malformedDocx : Buffer :=
  .zip { files := [{ path := "word/document.xml", compressedSize := 100,
                     data := .malformed }] }

/-- Self-diff input for the C1 counterexample: the same one-paragraph
document (text `"a b"`) on both sides, whitespace suppression disabled so
the token differ runs. -/
def selfDiffInput : DiffInput :=
  { base := zipOf (docOf [paraOf "a b"])
    revised := zipOf (docOf [paraOf "a b"])
    author := "AutoDiff"
    options := { defaultOptions with suppressWhitespaceOnly := false } }

/-- Append input for C6: base `[P1]`, revised `[P1, P2]`. -/
def appendInput : DiffInput :=
  { base := zipOf (docOf [paraOf "first"])
    revised := zipOf (docOf [paraOf "first", paraOf "second"])
    author := "AutoDiff"
    options := defaultOptions }

/-- Removal input for C6: base `[P1, P2]`, revised `[P1]`. -/
def removeInput : DiffInput :=
  { base := zipOf (docOf [paraOf "first", paraOf "second"])
    revised := zipOf (docOf [paraOf "first"])
    author := "AutoDiff"
    options := defaultOptions }

/-- C9 failing input: the base archive's `word/document.xml` is present
but malformed; the revised archive is fine. -/
def malformedInput : DiffInput :=
  { base := malformedDocx
    revised := zipOf (docOf [paraOf "first"])
    author := "AutoDiff"
    options := defaultOptions }

/-- A `del` wrapper nested inside the content of an `ins` wrapper (C8
counterexample input). -/
def nestedWrapperTree : JVal :=
  jobj [("ins", jobj [("r", jarr [jobj [("del",
    jobj [("r", jarr [jobj [("delText", .str "x")]])])]])])]

/-- A paragraph holding a single (non-nested) `ins` wrapper (C8 witness
input). -/
def simpleWrapped : JVal :=
  jobj [("p", jobj [("ins", jobj [("id", .str "1"),
    ("r", jarr [jobj [("t", .str "hi")]])])])]

/-! ## Fuel elimination for the differ -/

theorem lcsLenGo_nil_left (f : Nat) (b : List String) : lcsLenGo f [] b = 0 := by
  cases f <;> rfl

theorem lcsLenGo_nil_right (f : Nat) (a : List String) : lcsLenGo f a [] = 0 := by
  cases f <;> cases a <;> rfl

theorem lcsLenGo_succ_cons (f : Nat) (x y : String) (as bs : List String) :
    lcsLenGo (Nat.succ f) (x :: as) (y :: bs)
      = if x = y then lcsLenGo f as bs + 1
        else max (lcsLenGo f as (y :: bs)) (lcsLenGo f (x :: as) bs) := rfl

theorem lcsLenGo_fuel : ∀ (f g : Nat) (a b : List String),
    a.length + b.length ≤ f → a.length + b.length ≤ g →
    lcsLenGo f a b = lcsLenGo g a b := by
  intro f
  induction f with
  | zero =>
    intro g a b hf hg
    match a, b with
    | [], _ => rw [lcsLenGo_nil_left, lcsLenGo_nil_left]
    | _ :: _, [] => rw [lcsLenGo_nil_right, lcsLenGo_nil_right]
    | x :: as, y :: bs => simp [List.length_cons] at hf
  | succ f ih =>
    intro g a b hf hg
    match a, b with
    | [], _ => rw [lcsLenGo_nil_left, lcsLenGo_nil_left]
    | _ :: _, [] => rw [lcsLenGo_nil_right, lcsLenGo_nil_right]
    | x :: as, y :: bs =>
      match g, hg with
      | Nat.succ g, hg =>
        rw [lcsLenGo_succ_cons, lcsLenGo_succ_cons]
        have h1 : lcsLenGo f as bs = lcsLenGo g as bs := by
          apply ih <;> simp [List.length_cons] at hf hg ⊢ <;> omega
        have h2 : lcsLenGo f as (y :: bs) = lcsLenGo g as (y :: bs) := by
          apply ih <;> simp [List.length_cons] at hf hg ⊢ <;> omega
        have h3 : lcsLenGo f (x :: as) bs = lcsLenGo g (x :: as) bs := by
          apply ih <;> simp [List.length_cons] at hf hg ⊢ <;> omega
        rw [h1, h2, h3]

theorem lcsLenGo_eq (f : Nat) (a b : List String)
    (h : a.length + b.length ≤ f) : lcsLenGo f a b = lcsLen a b :=
  lcsLenGo_fuel f (a.length + b.length) a b h (Nat.le_refl _)

theorem lcsLen_nil_left (b : List String) : lcsLen [] b = 0 :=
  lcsLenGo_nil_left _ b

theorem lcsLen_nil_right (a : List String) : lcsLen a [] = 0 :=
  lcsLenGo_nil_right _ a

theorem lcsLen_cons_cons (x y : String) (as bs : List String) :
    lcsLen (x :: as) (y :: bs)
      = if x = y then lcsLen as bs + 1
        else max (lcsLen as (y :: bs)) (lcsLen (x :: as) bs) := by
  have h1 : (x :: as).length + (y :: bs).length
      = Nat.succ (as.length + bs.length + 1) := by
    simp [List.length_cons]; omega
  show lcsLenGo ((x :: as).length + (y :: bs).length) (x :: as) (y :: bs) = _
  rw [h1, lcsLenGo_succ_cons,
      lcsLenGo_eq _ as bs (by omega),
      lcsLenGo_eq _ as (y :: bs) (by simp [List.length_cons]; omega),
      lcsLenGo_eq _ (x :: as) bs (by simp [List.length_cons]; omega)]

theorem diffTokensGo_nil_left (f : Nat) (bs : List String) :
    diffTokensGo f [] bs = bs.map (fun v => Op.ins v) := by
  cases f <;> rfl

theorem diffTokensGo_nil_right (f : Nat) (a : List String) :
    diffTokensGo f a [] = a.map (fun v => Op.del v) := by
  cases f <;> cases a <;> rfl

theorem diffTokensGo_succ_cons (f : Nat) (x y : String) (as bs : List String) :
    diffTokensGo (Nat.succ f) (x :: as) (y :: bs)
      = if x = y then Op.eq x :: diffTokensGo f as bs
        else if lcsLen as (y :: bs) ≥ lcsLen (x :: as) bs then
          Op.del x :: diffTokensGo f as (y :: bs)
        else Op.ins y :: diffTokensGo f (x :: as) bs := rfl

theorem diffTokensGo_fuel : ∀ (f g : Nat) (a b : List String),
    a.length + b.length ≤ f → a.length + b.length ≤ g →
    diffTokensGo f a b = diffTokensGo g a b := by
  intro f
  induction f with
  | zero =>
    intro g a b hf hg
    match a, b with
    | [], _ => rw [diffTokensGo_nil_left, diffTokensGo_nil_left]
    | _ :: _, [] => rw [diffTokensGo_nil_right, diffTokensGo_nil_right]
    | x :: as, y :: bs => simp [List.length_cons] at hf
  | succ f ih =>
    intro g a b hf hg
    match a, b with
    | [], _ => rw [diffTokensGo_nil_left, diffTokensGo_nil_left]
    | _ :: _, [] => rw [diffTokensGo_nil_right, diffTokensGo_nil_right]
    | x :: as, y :: bs =>
      match g, hg with
      | Nat.succ g, hg =>
        rw [diffTokensGo_succ_cons, diffTokensGo_succ_cons]
        have h1 : diffTokensGo f as bs = diffTokensGo g as bs := by
          apply ih <;> simp [List.length_cons] at hf hg ⊢ <;> omega
        have h2 : diffTokensGo f as (y :: bs) = diffTokensGo g as (y :: bs) := by
          apply ih <;> simp [List.length_cons] at hf hg ⊢ <;> omega
        have h3 : diffTokensGo f (x :: as) bs = diffTokensGo g (x :: as) bs := by
          apply ih <;> simp [List.length_cons] at hf hg ⊢ <;> omega
        rw [h1, h2, h3]

theorem diffTokensGo_eq (f : Nat) (a b : List String)
    (h : a.length + b.length ≤ f) : diffTokensGo f a b = diffTokens a b :=
  diffTokensGo_fuel f (a.length + b.length) a b h (Nat.le_refl _)

theorem diffTokens_nil_left (bs : List String) :
    diffTokens [] bs = bs.map (fun v => Op.ins v) :=
  diffTokensGo_nil_left _ bs

theorem diffTokens_nil_right (a : List String) :
    diffTokens a [] = a.map (fun v => Op.del v) :=
  diffTokensGo_nil_right _ a

theorem diffTokens_cons_cons (x y : String) (as bs : List String) :
    diffTokens (x :: as) (y :: bs)
      = if x = y then Op.eq x :: diffTokens as bs
        else if lcsLen as (y :: bs) ≥ lcsLen (x :: as) bs then
          Op.del x :: diffTokens as (y :: bs)
        else Op.ins y :: diffTokens (x :: as) bs := by
  have h1 : (x :: as).length + (y :: bs).length
      = Nat.succ (as.length + bs.length + 1) := by
    simp [List.length_cons]; omega
  show diffTokensGo ((x :: as).length + (y :: bs).length) (x :: as) (y :: bs) = _
  rw [h1, diffTokensGo_succ_cons,
      diffTokensGo_eq _ as bs (by omega),
      diffTokensGo_eq _ as (y :: bs) (by simp [List.length_cons]; omega),
      diffTokensGo_eq _ (x :: as) bs (by simp [List.length_cons]; omega)]

/-! ## The edit script and the LCS -/

theorem countEq_map_ins (bs : List String) :
    countEq (bs.map (fun v => Op.ins v)) = 0 := by
  induction bs with
  | nil => rfl
  | cons b tl ih => simpa [countEq] using ih

theorem countEq_map_del (as : List String) :
    countEq (as.map (fun v => Op.del v)) = 0 := by
  induction as with
  | nil => rfl
  | cons a tl ih => simpa [countEq] using ih

theorem countEq_diffTokens_bounded : ∀ (n : Nat) (a b : List String),
    a.length + b.length ≤ n → countEq (diffTokens a b) = lcsLen a b := by
  intro n
  induction n with
  | zero =>
    intro a b h
    match a, b with
    | [], b => rw [diffTokens_nil_left, countEq_map_ins, lcsLen_nil_left]
    | _ :: _, [] => simp [List.length_cons] at h
    | _ :: _, _ :: _ => simp [List.length_cons] at h
  | succ n ih =>
    intro a b h
    match a, b with
    | [], b => rw [diffTokens_nil_left, countEq_map_ins, lcsLen_nil_left]
    | a :: as, [] => rw [diffTokens_nil_right, countEq_map_del, lcsLen_nil_right]
    | x :: as, y :: bs =>
      rw [diffTokens_cons_cons, lcsLen_cons_cons]
      by_cases hxy : x = y
      · rw [if_pos hxy, if_pos hxy]
        simp only [countEq]
        rw [ih as bs (by simp [List.length_cons] at h ⊢; omega)]
      · rw [if_neg hxy, if_neg hxy]
        by_cases hge : lcsLen as (y :: bs) ≥ lcsLen (x :: as) bs
        · rw [if_pos hge]
          simp only [countEq]
          rw [ih as (y :: bs) (by simp [List.length_cons] at h ⊢; omega)]
          exact (Nat.max_eq_left hge).symm
        · rw [if_neg hge]
          simp only [countEq]
          rw [ih (x :: as) bs (by simp [List.length_cons] at h ⊢; omega)]
          exact (Nat.max_eq_right (Nat.le_of_not_le hge)).symm

theorem countEq_diffTokens (a b : List String) :
    countEq (diffTokens a b) = lcsLen a b :=
  countEq_diffTokens_bounded (a.length + b.length) a b (Nat.le_refl _)

theorem lcsLen_ub : ∀ (n : Nat) (a b : List String),
    a.length + b.length ≤ n → ∀ l : List String,
    l.Sublist a → l.Sublist b → l.length ≤ lcsLen a b := by
  intro n
  induction n with
  | zero =>
    intro a b h l ha hb
    match a, b with
    | [], _ =>
      rw [List.sublist_nil.mp ha]
      exact Nat.zero_le _
    | _ :: _, [] => simp [List.length_cons] at h
    | _ :: _, _ :: _ => simp [List.length_cons] at h
  | succ n ih =>
    intro a b h l ha hb
    match a, b with
    | [], _ =>
      rw [List.sublist_nil.mp ha]
      exact Nat.zero_le _
    | _ :: _, [] =>
      rw [List.sublist_nil.mp hb]
      exact Nat.zero_le _
    | x :: as, y :: bs =>
      rw [lcsLen_cons_cons]
      by_cases hxy : x = y
      · rw [if_pos hxy]
        subst hxy
        match l, ha, hb with
        | [], _, _ => exact Nat.zero_le _
        | z :: l', ha, hb =>
          by_cases hzx : z = x
          · subst hzx
            have h1 : l'.Sublist as := List.cons_sublist_cons.mp ha
            have h2 : l'.Sublist bs := List.cons_sublist_cons.mp hb
            simp only [List.length_cons]
            exact Nat.succ_le_succ
              (ih as bs (by simp [List.length_cons] at h ⊢; omega) l' h1 h2)
          · have h1 : (z :: l').Sublist as :=
              (List.cons_sublist_cons'.mp ha).elim id
                (fun hh => absurd hh.1 hzx)
            have h2 : (z :: l').Sublist bs :=
              (List.cons_sublist_cons'.mp hb).elim id
                (fun hh => absurd hh.1 hzx)
            exact Nat.le_succ_of_le
              (ih as bs (by simp [List.length_cons] at h ⊢; omega) _ h1 h2)
      · rw [if_neg hxy]
        match l, ha, hb with
        | [], _, _ => exact Nat.zero_le _
        | z :: l', ha, hb =>
          by_cases hzx : z = x
          · have hzy : z ≠ y := fun hzy => hxy (hzx ▸ hzy)
            have h2 : (z :: l').Sublist bs :=
              (List.cons_sublist_cons'.mp hb).elim id
                (fun hh => absurd hh.1 hzy)
            exact Nat.le_trans
              (ih (x :: as) bs (by simp [List.length_cons] at h ⊢; omega) _ ha h2)
              (Nat.le_max_right _ _)
          · have h1 : (z :: l').Sublist as :=
              (List.cons_sublist_cons'.mp ha).elim id
                (fun hh => absurd hh.1 hzx)
            exact Nat.le_trans
              (ih as (y :: bs) (by simp [List.length_cons] at h ⊢; omega) _ h1 hb)
              (Nat.le_max_left _ _)

theorem lcsLen_witness : ∀ (n : Nat) (a b : List String),
    a.length + b.length ≤ n →
    ∃ l : List String, l.Sublist a ∧ l.Sublist b ∧ l.length = lcsLen a b := by
  intro n
  induction n with
  | zero =>
    intro a b h
    match a, b with
    | [], b =>
      exact ⟨[], List.nil_sublist _, List.nil_sublist _, (lcsLen_nil_left b).symm⟩
    | _ :: _, [] => simp [List.length_cons] at h
    | _ :: _, _ :: _ => simp [List.length_cons] at h
  | succ n ih =>
    intro a b h
    match a, b with
    | [], b =>
      exact ⟨[], List.nil_sublist _, List.nil_sublist _, (lcsLen_nil_left b).symm⟩
    | a :: as, [] =>
      exact ⟨[], List.nil_sublist _, List.nil_sublist _,
        (lcsLen_nil_right (a :: as)).symm⟩
    | x :: as, y :: bs =>
      rw [lcsLen_cons_cons]
      by_cases hxy : x = y
      · rw [if_pos hxy]
        subst hxy
        obtain ⟨l, h1, h2, h3⟩ :=
          ih as bs (by simp [List.length_cons] at h ⊢; omega)
        exact ⟨x :: l, List.cons_sublist_cons.mpr h1,
          List.cons_sublist_cons.mpr h2, by simp [List.length_cons, h3]⟩
      · rw [if_neg hxy]
        by_cases hge : lcsLen as (y :: bs) ≥ lcsLen (x :: as) bs
        · obtain ⟨l, h1, h2, h3⟩ :=
            ih as (y :: bs) (by simp [List.length_cons] at h ⊢; omega)
          exact ⟨l, h1.cons x, h2, by rw [h3, Nat.max_eq_left hge]⟩
        · obtain ⟨l, h1, h2, h3⟩ :=
            ih (x :: as) bs (by simp [List.length_cons] at h ⊢; omega)
          exact ⟨l, h1, h2.cons y,
            by rw [h3, Nat.max_eq_right (Nat.le_of_not_le hge)]⟩

theorem baseTokens_map_ins (bs : List String) :
    baseTokens (bs.map (fun v => Op.ins v)) = [] := by
  induction bs with
  | nil => rfl
  | cons b tl ih => simpa [baseTokens] using ih

theorem revTokens_map_ins (bs : List String) :
    revTokens (bs.map (fun v => Op.ins v)) = bs := by
  induction bs with
  | nil => rfl
  | cons b tl ih => simpa [revTokens] using ih

theorem baseTokens_map_del (as : List String) :
    baseTokens (as.map (fun v => Op.del v)) = as := by
  induction as with
  | nil => rfl
  | cons a tl ih => simpa [baseTokens] using ih

theorem revTokens_map_del (as : List String) :
    revTokens (as.map (fun v => Op.del v)) = [] := by
  induction as with
  | nil => rfl
  | cons a tl ih => simpa [revTokens] using ih

theorem diffTokens_sides_bounded : ∀ (n : Nat) (a b : List String),
    a.length + b.length ≤ n →
    baseTokens (diffTokens a b) = a ∧ revTokens (diffTokens a b) = b := by
  intro n
  induction n with
  | zero =>
    intro a b h
    match a, b with
    | [], b =>
      rw [diffTokens_nil_left]
      exact ⟨baseTokens_map_ins b, revTokens_map_ins b⟩
    | _ :: _, [] => simp [List.length_cons] at h
    | _ :: _, _ :: _ => simp [List.length_cons] at h
  | succ n ih =>
    intro a b h
    match a, b with
    | [], b =>
      rw [diffTokens_nil_left]
      exact ⟨baseTokens_map_ins b, revTokens_map_ins b⟩
    | a :: as, [] =>
      rw [diffTokens_nil_right]
      exact ⟨baseTokens_map_del (a :: as), revTokens_map_del (a :: as)⟩
    | x :: as, y :: bs =>
      rw [diffTokens_cons_cons]
      by_cases hxy : x = y
      · rw [if_pos hxy]
        obtain ⟨h1, h2⟩ := ih as bs (by simp [List.length_cons] at h ⊢; omega)
        subst hxy
        exact ⟨by simp [baseTokens, h1], by simp [revTokens, h2]⟩
      · rw [if_neg hxy]
        by_cases hge : lcsLen as (y :: bs) ≥ lcsLen (x :: as) bs
        · rw [if_pos hge]
          obtain ⟨h1, h2⟩ :=
            ih as (y :: bs) (by simp [List.length_cons] at h ⊢; omega)
          exact ⟨by simp [baseTokens, h1], by simp [revTokens, h2]⟩
        · rw [if_neg hge]
          obtain ⟨h1, h2⟩ :=
            ih (x :: as) bs (by simp [List.length_cons] at h ⊢; omega)
          exact ⟨by simp [baseTokens, h1], by simp [revTokens, h2]⟩

theorem diffTokens_self (l : List String) :
    diffTokens l l = l.map (fun v => Op.eq v) := by
  induction l with
  | nil => rfl
  | cons x tl ih => rw [diffTokens_cons_cons, if_pos rfl, ih]; rfl

/-! ## Tokenizer round-trip -/

theorem splitRuns_join : ∀ l : List Char, (splitRuns l).flatten = l := by
  intro l
  induction l with
  | nil => rfl
  | cons c cs ih =>
    show (match splitRuns cs with
      | [] => [[c]]
      | [] :: gs => [c] :: [] :: gs
      | (d :: ds) :: gs =>
        if charClass c == charClass d then (c :: d :: ds) :: gs
        else [c] :: (d :: ds) :: gs).flatten = c :: cs
    match hs : splitRuns cs with
    | [] =>
      rw [← ih, hs]
      rfl
    | [] :: gs =>
      rw [← ih, hs]
      rfl
    | (d :: ds) :: gs =>
      change (if charClass c == charClass d then (c :: d :: ds) :: gs
        else [c] :: (d :: ds) :: gs).flatten = c :: cs
      by_cases hc : charClass c == charClass d
      · rw [if_pos hc, ← ih, hs]
        rfl
      · rw [if_neg hc, ← ih, hs]
        rfl

theorem string_mk_toList (t : String) : String.mk t.toList = t := by
  cases t
  rfl

theorem string_mk_append (a b : List Char) :
    String.mk a ++ String.mk b = String.mk (a ++ b) := rfl

theorem concatStrings_map_mk : ∀ gs : List (List Char),
    concatStrings (gs.map (fun g => String.mk g)) = String.mk gs.flatten := by
  intro gs
  induction gs with
  | nil => rfl
  | cons g tl ih =>
    simp only [List.map, concatStrings, List.flatten, ih, string_mk_append]

theorem tokenizeWords_roundtrip (t : String) :
    concatStrings (tokenizeWords t) = t := by
  show concatStrings ((splitRuns t.toList).map (fun g => String.mk g)) = t
  rw [concatStrings_map_mk, splitRuns_join, string_mk_toList]

theorem flatten_map_singleton : ∀ l : List Char,
    (l.map (fun c => [c])).flatten = l := by
  intro l
  induction l with
  | nil => rfl
  | cons c tl ih => simp [ih]

theorem tokenize_roundtrip_aux (t : String) (g : Granularity) :
    concatStrings (tokenize t g) = t := by
  match g with
  | .word => exact tokenizeWords_roundtrip t
  | .char =>
    show concatStrings (t.toList.map (fun c => String.mk [c])) = t
    have : t.toList.map (fun c => String.mk [c])
        = (t.toList.map (fun c => [c])).map (fun g => String.mk g) := by
      simp [List.map_map]
    rw [this, concatStrings_map_mk, flatten_map_singleton, string_mk_toList]

/-! ## Run synthesis on an all-equal script -/

theorem flushRuns_empty (author now : String) (n : Nat) :
    flushRuns author now "" "" n = ([], n) := rfl

theorem mergeRunsGo_map_eq (author now : String) :
    ∀ (l : List String) (n : Nat),
    mergeRunsGo author now (l.map (fun v => Op.eq v)) "" "" n
      = l.map plainRunWrap := by
  intro l
  induction l with
  | nil => intro n; rfl
  | cons v tl ih =>
    intro n
    show (flushRuns author now "" "" n).1 ++ plainRunWrap v ::
        mergeRunsGo author now (tl.map (fun v => Op.eq v)) "" ""
          (flushRuns author now "" "" n).2 = _
    rw [flushRuns_empty]
    simp only [List.nil_append, List.map]
    rw [ih n]

theorem mergeRuns_map_eq (author now : String) (l : List String) :
    mergeRuns (l.map (fun v => Op.eq v)) author now = l.map plainRunWrap :=
  mergeRunsGo_map_eq author now l 1

theorem coalesceRun_plain (v : String) :
    coalesceRun (plainRunWrap v) = plainInnerRun v := rfl

theorem coalesceRuns_plain : ∀ l : List String,
    coalesceRuns (l.map plainRunWrap) = jlistOf (l.map plainInnerRun) := by
  intro l
  induction l with
  | nil => rfl
  | cons v tl ih => simp [coalesceRuns, jlistOf, coalesceRun_plain, ih]

/-! ## `spreadSetR` and `paragraphText` -/

theorem get?_setFieldKey : ∀ (fs : JFields) (k : String) (v : JVal),
    fs.hasFieldKey k = true → (fs.setFieldKey k v).get? k = some v
  | .nil, k, v, h => by simp [JFields.hasFieldKey] at h
  | .cons key val tl, k, v, h => by
    by_cases hk : key == k
    · simp [JFields.setFieldKey, JFields.get?, hk]
    · simp [JFields.hasFieldKey, hk] at h
      simp [JFields.setFieldKey, JFields.get?, hk, get?_setFieldKey tl k v h]

theorem get?_appendFieldKey : ∀ (fs : JFields) (k : String) (v : JVal),
    fs.hasFieldKey k = false → (fs.appendFieldKey k v).get? k = some v
  | .nil, k, v, _ => by simp [JFields.appendFieldKey, JFields.get?]
  | .cons key val tl, k, v, h => by
    simp [JFields.hasFieldKey] at h
    simp [JFields.appendFieldKey, JFields.get?, h.1, get?_appendFieldKey tl k v h.2]

theorem getKey_spreadSetR (p v : JVal) :
    getKey (spreadSetR p v) "r" = some v := by
  match p with
  | .obj fs =>
    show getKey (if fs.hasFieldKey "r" then JVal.obj (fs.setFieldKey "r" v)
      else JVal.obj (fs.appendFieldKey "r" v)) "r" = some v
    by_cases h : fs.hasFieldKey "r"
    · rw [if_pos h]
      exact get?_setFieldKey fs "r" v h
    · rw [if_neg h]
      exact get?_appendFieldKey fs "r" v (Bool.of_not_eq_true h)
  | .null => rfl
  | .bool b => rfl
  | .num n => rfl
  | .str s => rfl
  | .arr xs => rfl

theorem runText_plainInnerRun (v : String) : runText (plainInnerRun v) = v := rfl

theorem textOfRuns_plain : ∀ l : List String,
    textOfRuns (jlistOf (l.map plainInnerRun)) = concatStrings l := by
  intro l
  induction l with
  | nil => rfl
  | cons v tl ih => simp [jlistOf, textOfRuns, runText_plainInnerRun, ih, concatStrings]

theorem paragraphText_spreadSetR_plain (p : JVal) (l : List String) :
    paragraphText (spreadSetR p (.arr (jlistOf (l.map plainInnerRun))))
      = concatStrings l := by
  show (let runs : JList :=
    match getKey (spreadSetR p (.arr (jlistOf (l.map plainInnerRun)))) "r" with
    | some (.arr xs) => xs
    | some v => if truthy v then .cons v .nil else .nil
    | none => .nil
    textOfRuns runs) = concatStrings l
  rw [getKey_spreadSetR]
  exact textOfRuns_plain l

/-! ## Markup preservation -/

theorem hasKeyDeep_plainInnerRun (k : String) (v : String)
    (h1 : ("t" == k) = false) (h2 : ("@_xml:space" == k) = false)
    (h3 : ("#text" == k) = false) : hasKeyDeep k (plainInnerRun v) = false := by
  simp [plainInnerRun, jobj, jfieldsOf, hasKeyDeep, hasKeyDeepFields, h1, h2, h3]

theorem hasKeyDeepList_plainRuns (k : String) (l : List String)
    (h1 : ("t" == k) = false) (h2 : ("@_xml:space" == k) = false)
    (h3 : ("#text" == k) = false) :
    hasKeyDeepList k (jlistOf (l.map plainInnerRun)) = false := by
  induction l with
  | nil => rfl
  | cons v tl ih =>
    simp [jlistOf, hasKeyDeepList, ih, hasKeyDeep_plainInnerRun k v h1 h2 h3]

theorem hasKeyDeepFields_set : ∀ (fs : JFields) (k rk : String) (v : JVal),
    hasKeyDeepFields k fs = false → hasKeyDeep k v = false →
    hasKeyDeepFields k (fs.setFieldKey rk v) = false
  | .nil, _, _, _, _, _ => rfl
  | .cons key val tl, k, rk, v, hf, hv => by
    simp [hasKeyDeepFields] at hf
    obtain ⟨⟨hne, hval⟩, htl⟩ := hf
    by_cases hk : key == rk
    · simp [JFields.setFieldKey, hasKeyDeepFields, hk, hne, hv,
        hasKeyDeepFields_set tl k rk v htl hv]
    · simp [JFields.setFieldKey, hasKeyDeepFields, hk, hne, hval,
        hasKeyDeepFields_set tl k rk v htl hv]

theorem hasKeyDeepFields_append : ∀ (fs : JFields) (k rk : String) (v : JVal),
    (rk == k) = false →
    hasKeyDeepFields k fs = false → hasKeyDeep k v = false →
    hasKeyDeepFields k (fs.appendFieldKey rk v) = false
  | .nil, k, rk, v, hrk, _, hv => by
    simp [JFields.appendFieldKey, hasKeyDeepFields, hrk, hv]
  | .cons key val tl, k, rk, v, hrk, hf, hv => by
    simp [hasKeyDeepFields] at hf
    obtain ⟨⟨hne, hval⟩, htl⟩ := hf
    simp [JFields.appendFieldKey, hasKeyDeepFields, hne, hval,
      hasKeyDeepFields_append tl k rk v hrk htl hv]

theorem hasKeyDeep_spreadSetR (p v : JVal) (k : String)
    (hrk : ("r" == k) = false)
    (hp : hasKeyDeep k p = false) (hv : hasKeyDeep k v = false) :
    hasKeyDeep k (spreadSetR p v) = false := by
  match p with
  | .obj fs =>
    show hasKeyDeep k (if fs.hasFieldKey "r" then JVal.obj (fs.setFieldKey "r" v)
      else JVal.obj (fs.appendFieldKey "r" v)) = false
    have hpf : hasKeyDeepFields k fs = false := hp
    by_cases h : fs.hasFieldKey "r"
    · rw [if_pos h]
      exact hasKeyDeepFields_set fs k "r" v hpf hv
    · rw [if_neg h]
      exact hasKeyDeepFields_append fs k "r" v hrk hpf hv
  | .null => simp [spreadSetR, hasKeyDeep, hasKeyDeepFields, hrk, hv]
  | .bool b => simp [spreadSetR, hasKeyDeep, hasKeyDeepFields, hrk, hv]
  | .num n => simp [spreadSetR, hasKeyDeep, hasKeyDeepFields, hrk, hv]
  | .str s => simp [spreadSetR, hasKeyDeep, hasKeyDeepFields, hrk, hv]
  | .arr xs => simp [spreadSetR, hasKeyDeep, hasKeyDeepFields, hrk, hv]

/-! ## `diffParagraph` on suppression and on equal inputs -/

theorem diffParagraph_suppressed (bp rp : JVal) (author : String)
    (opts : Options) (now : String)
    (hsw : opts.suppressWhitespaceOnly = true)
    (htrim : jsTrim (paragraphText bp) = jsTrim (paragraphText rp)) :
    diffParagraph bp rp author opts now = rp := by
  unfold diffParagraph
  rw [hsw]
  simp [htrim]

theorem diffParagraph_self_unsuppressed (p : JVal) (author now : String)
    (opts : Options) (hsw : opts.suppressWhitespaceOnly = false) :
    diffParagraph p p author opts now
      = spreadSetR p (.arr (jlistOf
          ((tokenize (paragraphText p) opts.granularity).map plainInnerRun))) := by
  unfold diffParagraph
  rw [hsw]
  simp only [Bool.false_and, Bool.false_eq_true, if_false]
  rw [diffTokens_self, mergeRuns_map_eq, coalesceRuns_plain]

/-! ## Stripper: a single pass eliminates wrappers under the nesting
discipline `okNesting` -/

theorem stripTrackedChanges_obj (fs : JFields) :
    stripTrackedChanges (.obj fs)
      = (match wrapperContent fs with
         | some content =>
           if truthy content then
             match getKey content "r" with
             | some (.arr rs) => JVal.obj (.cons "r" (.arr rs) .nil)
             | _ => content
           else JVal.obj (stripFields fs)
         | none => JVal.obj (stripFields fs)) := rfl

theorem stripChildVal_obj (fs : JFields) :
    stripChildVal (.obj fs) = stripTrackedChanges (.obj fs) := rfl

theorem okNesting_obj (fs : JFields) :
    okNesting (.obj fs)
      = (match wrapperContent fs with
         | some content =>
           if truthy content then !hasWrapper content else okNestingFields fs
         | none => okNestingFields fs) := rfl

theorem hasWrapper_obj (fs : JFields) :
    hasWrapper (.obj fs) = (isWrapper fs || hasWrapperFields fs) := rfl

theorem truthyOpt_jsOrV (a b : Option JVal) :
    truthyOpt (jsOrV a b) = (truthyOpt a || truthyOpt b) := by
  by_cases h : truthyOpt a
  · simp [jsOrV, h]
  · simp [jsOrV, h]

theorem truthy_stripChildVal : ∀ v : JVal, truthy (stripChildVal v) = truthy v
  | .null => rfl
  | .bool b => rfl
  | .num n => rfl
  | .str s => rfl
  | .arr xs => rfl
  | .obj fs => by
    rw [stripChildVal_obj, stripTrackedChanges_obj]
    match wrapperContent fs with
    | some content =>
      by_cases hc : truthy content
      · simp only [if_pos hc]
        match getKey content "r" with
        | some (.arr rs) => rfl
        | some .null => exact hc
        | some (.bool b) => exact hc
        | some (.num n) => exact hc
        | some (.str s) => exact hc
        | some (.obj gs) => exact hc
        | none => exact hc
      · simp only [if_neg hc]
        rfl
    | none => rfl

theorem get?_stripFields : ∀ (fs : JFields) (k : String),
    (stripFields fs).get? k = (fs.get? k).map stripChildVal
  | .nil, _ => rfl
  | .cons key val tl, k => by
    by_cases hk : key == k
    · simp [stripFields, JFields.get?, hk]
    · simp [stripFields, JFields.get?, hk, get?_stripFields tl k]

theorem truthyOpt_map_stripChildVal (o : Option JVal) :
    truthyOpt (o.map stripChildVal) = truthyOpt o := by
  match o with
  | none => rfl
  | some v => simpa [truthyOpt] using truthy_stripChildVal v

theorem isWrapper_stripFields (fs : JFields) :
    isWrapper (stripFields fs) = isWrapper fs := by
  show truthyOpt (wrapperContent (stripFields fs))
      = truthyOpt (wrapperContent fs)
  unfold wrapperContent
  simp only [truthyOpt_jsOrV, get?_stripFields, truthyOpt_map_stripChildVal]

theorem get?_hasWrapperFields : ∀ (fs : JFields) (k : String) (w : JVal),
    fs.get? k = some w → hasWrapperFields fs = false → hasWrapper w = false
  | .nil, _, _, hg, _ => by simp [JFields.get?] at hg
  | .cons key val tl, k, w, hg, hf => by
    simp [hasWrapperFields] at hf
    by_cases hk : key == k
    · simp [JFields.get?, hk] at hg
      exact hg ▸ hf.1
    · simp [JFields.get?, hk] at hg
      exact get?_hasWrapperFields tl k w hg hf.2

theorem getKey_some_obj : ∀ (v : JVal) (k : String) (w : JVal),
    getKey v k = some w → ∃ cfs, v = .obj cfs ∧ cfs.get? k = some w := by
  intro v k w h
  match v with
  | .null => simp [getKey] at h
  | .bool b => simp [getKey] at h
  | .num n => simp [getKey] at h
  | .str st => simp [getKey] at h
  | .arr xs => simp [getKey] at h
  | .obj cfs => exact ⟨cfs, rfl, h⟩

theorem stripObj_noWrapper_aux (fs : JFields)
    (ihFields : okNestingFields fs = true →
      hasWrapperFields (stripFields fs) = false)
    (h : okNesting (.obj fs) = true) :
    hasWrapper (stripTrackedChanges (.obj fs)) = false := by
  rw [okNesting_obj] at h
  rw [stripTrackedChanges_obj]
  match hw : wrapperContent fs with
  | some content =>
    rw [hw] at h
    dsimp only at h ⊢
    by_cases hc : truthy content
    · rw [if_pos hc] at h ⊢
      have hcw : hasWrapper content = false := by simpa using h
      match hr : getKey content "r" with
      | some (.arr rs) =>
        obtain ⟨cfs, hceq, hr2⟩ := getKey_some_obj content "r" _ hr
        subst hceq
        rw [hasWrapper_obj] at hcw
        simp only [Bool.or_eq_false_iff] at hcw
        have hrs : hasWrapper (.arr rs) = false :=
          get?_hasWrapperFields cfs "r" _ hr2 hcw.2
        rw [hasWrapper_obj]
        have h1 : isWrapper (.cons "r" (.arr rs) .nil) = false := rfl
        have h2 : hasWrapperFields (.cons "r" (.arr rs) .nil)
            = (hasWrapper (.arr rs) || false) := rfl
        rw [h1, h2, hrs]
        rfl
      | some .null => exact hcw
      | some (.bool b) => exact hcw
      | some (.num n) => exact hcw
      | some (.str st) => exact hcw
      | some (.obj gs) => exact hcw
      | none => exact hcw
    · rw [if_neg hc] at h ⊢
      rw [hasWrapper_obj, isWrapper_stripFields]
      have hiw : isWrapper fs = false := by
        show truthyOpt (wrapperContent fs) = false
        rw [hw]
        simpa using hc
      rw [hiw, ihFields h]
      rfl
  | none =>
    rw [hw] at h
    dsimp only at h ⊢
    rw [hasWrapper_obj, isWrapper_stripFields]
    have hiw : isWrapper fs = false := by
      show truthyOpt (wrapperContent fs) = false
      rw [hw]
      rfl
    rw [hiw, ihFields h]
    rfl

mutual

theorem strip_noWrapper : ∀ (v : JVal), okNesting v = true →
    hasWrapper (stripTrackedChanges v) = false
  | .null, _ => rfl
  | .bool _, _ => rfl
  | .num _, _ => rfl
  | .str _, _ => rfl
  | .arr xs, h => stripElems_noWrapper xs h
  | .obj fs, h =>
    stripObj_noWrapper_aux fs (fun hh => stripFields_noWrapper fs hh) h

theorem stripFields_noWrapper : ∀ (fs : JFields), okNestingFields fs = true →
    hasWrapperFields (stripFields fs) = false
  | .nil, _ => rfl
  | .cons k v tl, h => by
    simp [okNestingFields] at h
    show (hasWrapper (stripChildVal v) || hasWrapperFields (stripFields tl)) = false
    rw [stripChildVal_noWrapper v h.1, stripFields_noWrapper tl h.2]
    rfl

theorem stripChildVal_noWrapper : ∀ (v : JVal), okNesting v = true →
    hasWrapper (stripChildVal v) = false
  | .null, _ => rfl
  | .bool _, _ => rfl
  | .num _, _ => rfl
  | .str _, _ => rfl
  | .arr xs, h => stripMap_noWrapper xs h
  | .obj fs, h =>
    stripObj_noWrapper_aux fs (fun hh => stripFields_noWrapper fs hh) h

theorem stripElems_noWrapper : ∀ (xs : JList), okNestingList xs = true →
    hasWrapperList (stripElems xs) = false
  | .nil, _ => rfl
  | .cons v tl, h => by
    simp [okNestingList] at h
    show (hasWrapper (stripChildVal v) || hasWrapperList (stripElems tl)) = false
    rw [stripChildVal_noWrapper v h.1, stripElems_noWrapper tl h.2]
    rfl

theorem stripMap_noWrapper : ∀ (xs : JList), okNestingList xs = true →
    hasWrapperList (stripMap xs) = false
  | .nil, _ => rfl
  | .cons v tl, h => by
    simp [okNestingList] at h
    show (hasWrapper (stripTrackedChanges v) || hasWrapperList (stripMap tl)) = false
    rw [strip_noWrapper v h.1, stripMap_noWrapper tl h.2]
    rfl

end

/-! ## The claims -/

/-- C2: for every paragraph text `T` and each granularity `g`, the
concatenation in order of `tokenize(T, g)` is exactly `T`: no character is
lost, duplicated or trimmed (whitespace separators are retained inside the
token list). -/
theorem tokenize_roundtrip (t : String) (g : Granularity) :
    concatStrings (tokenize t g) = t := tokenize_roundtrip_aux t g

/-- C3: the number of `eq` operations of `diffTokens(A, B)` equals the
true longest-common-subsequence length of `A` and `B`: some common
subsequence has exactly that length, and none is longer. -/
theorem diffTokens_equal_count_is_lcs (a b : List String) :
    (∃ l : List String, l.Sublist a ∧ l.Sublist b
      ∧ l.length = countEq (diffTokens a b))
    ∧ ∀ l : List String, l.Sublist a → l.Sublist b →
        l.length ≤ countEq (diffTokens a b) := by
  constructor
  · obtain ⟨l, h1, h2, h3⟩ :=
      lcsLen_witness (a.length + b.length) a b (Nat.le_refl _)
    exact ⟨l, h1, h2, by rw [countEq_diffTokens]; exact h3⟩
  · intro l ha hb
    rw [countEq_diffTokens]
    exact lcsLen_ub (a.length + b.length) a b (Nat.le_refl _) l ha hb

/-- C4: the `eq`/`del` subsequence of `diffTokens(A, B)` carries exactly
the tokens of `A` in order, and the `eq`/`ins` subsequence exactly the
tokens of `B` in order. -/
theorem diffTokens_reconstructs_sides (a b : List String) :
    baseTokens (diffTokens a b) = a ∧ revTokens (diffTokens a b) = b :=
  diffTokens_sides_bounded (a.length + b.length) a b (Nat.le_refl _)

/-- C5: at a backtracking tie (`dp[i+1][j] = dp[i][j+1]`) on unequal head
tokens, `diffTokens` emits `del` (consuming from A) before `ins`; in
particular (witness) `diffTokens([A,B], [A,C])` is
`[eq(A), del(B), ins(C)]`. -/
theorem diffTokens_tie_prefers_delete (x y : String) (as bs : List String)
    (hxy : x ≠ y) (htie : lcsLen as (y :: bs) = lcsLen (x :: as) bs) :
    diffTokens (x :: as) (y :: bs) = Op.del x :: diffTokens as (y :: bs) := by
  rw [diffTokens_cons_cons, if_neg hxy, if_pos htie.ge]

/-- C5 witness: the replace tie-break at the concrete input of the claim. -/
theorem diffTokens_tie_prefers_delete_witness :
    diffTokens ["A", "B"] ["A", "C"] = [Op.eq "A", Op.del "B", Op.ins "C"] := by
  have h := diffTokens_tie_prefers_delete "B" "C" [] [] (by decide) rfl
  calc diffTokens ["A", "B"] ["A", "C"]
      = Op.eq "A" :: diffTokens ["B"] ["C"] := rfl
    _ = Op.eq "A" :: (Op.del "B" :: diffTokens [] ["C"]) := by rw [h]
    _ = [Op.eq "A", Op.del "B", Op.ins "C"] := rfl

set_option maxRecDepth 1000000 in
/-- C1 counterexample: diffing the one-paragraph document `"a b"` against
itself (whitespace suppression off, so the token differ runs) yields a
paragraph of three plain runs — one per token — not a single plain run. -/
theorem selfDiff_single_run_cex :
    runCount ((outputParas
      (docxDiffTracked "NOW" selfDiffInput)).getD 0 .null) = 3
    ∧ (3 : Nat) ≠ 1 :=
  ⟨rfl, by decide⟩

/-- C1 (amended): diffing a markup-free paragraph against itself yields a
paragraph with no insertion/deletion markup whose text is the full
original text; with `suppressWhitespaceOnly` on the revised paragraph is
returned unchanged, and with it off the run array holds one plain run per
token (not a single merged run). -/
theorem selfDiff_plain_runs (p : JVal) (author now : String) (opts : Options)
    (hm : hasTrackedMarkup p = false) :
    hasTrackedMarkup (diffParagraph p p author opts now) = false
    ∧ paragraphText (diffParagraph p p author opts now) = paragraphText p
    ∧ (opts.suppressWhitespaceOnly = true →
        diffParagraph p p author opts now = p)
    ∧ (opts.suppressWhitespaceOnly = false →
        getKey (diffParagraph p p author opts now) "r"
          = some (.arr (jlistOf
              ((tokenize (paragraphText p) opts.granularity).map
                plainInnerRun)))) := by
  by_cases hsw : opts.suppressWhitespaceOnly
  · have hd := diffParagraph_suppressed p p author opts now hsw rfl
    rw [hd]
    exact ⟨hm, rfl, fun _ => rfl, fun hco => absurd hsw (by simp [hco])⟩
  · have hsw' : opts.suppressWhitespaceOnly = false :=
      Bool.eq_false_iff.mpr hsw
    have hd := diffParagraph_self_unsuppressed p author now opts hsw'
    rw [hd]
    have harr : ∀ k : String, ("t" == k) = false →
        ("@_xml:space" == k) = false → ("#text" == k) = false →
        hasKeyDeep k (JVal.arr (jlistOf
          ((tokenize (paragraphText p) opts.granularity).map
            plainInnerRun))) = false :=
      fun k h1 h2 h3 => hasKeyDeepList_plainRuns k _ h1 h2 h3
    refine ⟨?_, ?_, fun hcon => absurd hcon (by simp [hsw']),
      fun _ => getKey_spreadSetR _ _⟩
    · unfold hasTrackedMarkup at hm ⊢
      simp only [Bool.or_eq_false_iff] at hm
      rw [hasKeyDeep_spreadSetR _ _ "ins" (by decide) hm.1.1
            (harr "ins" (by decide) (by decide) (by decide)),
          hasKeyDeep_spreadSetR _ _ "del" (by decide) hm.1.2
            (harr "del" (by decide) (by decide) (by decide)),
          hasKeyDeep_spreadSetR _ _ "delText" (by decide) hm.2
            (harr "delText" (by decide) (by decide) (by decide))]
      rfl
    · rw [paragraphText_spreadSetR_plain, tokenize_roundtrip_aux]

set_option maxRecDepth 1000000 in
/-- C1 witness: the amended claim at the one-run paragraph `"a b"`. -/
theorem selfDiff_plain_runs_witness :
    hasTrackedMarkup (diffParagraph (paraOf "a b") (paraOf "a b") "AutoDiff"
      { defaultOptions with suppressWhitespaceOnly := false } "NOW") = false
    ∧ paragraphText (diffParagraph (paraOf "a b") (paraOf "a b") "AutoDiff"
      { defaultOptions with suppressWhitespaceOnly := false } "NOW")
        = "a b" := by
  have h := selfDiff_plain_runs (paraOf "a b") "AutoDiff" "NOW"
    { defaultOptions with suppressWhitespaceOnly := false } rfl
  exact ⟨h.1, h.2.1⟩

set_option maxRecDepth 1000000 in
/-- C7 counterexample: `"Hello  world"` against `"Hello world"` (internal
spacing difference) with `suppressWhitespaceOnly = true` still runs the
token differ: the output paragraph carries deletion markup and its plain
text is `"Helloworld"`, not `"Hello world"`. -/
theorem suppress_internal_whitespace_cex :
    hasTrackedMarkup (diffParagraph (paraOf "Hello  world")
      (paraOf "Hello world") "AutoDiff" defaultOptions "NOW") = true
    ∧ paragraphText (diffParagraph (paraOf "Hello  world")
      (paraOf "Hello world") "AutoDiff" defaultOptions "NOW") = "Helloworld"
    ∧ "Helloworld" ≠ "Hello world" :=
  ⟨rfl, rfl, by decide⟩

/-- C7 (amended): with `suppressWhitespaceOnly` on, suppression fires
exactly when the two texts agree after trimming *surrounding* whitespace
(`String.prototype.trim`); then the revised paragraph is emitted unchanged
with its text intact. -/
theorem suppress_trimmed_equal (bp rp : JVal) (author : String)
    (opts : Options) (now : String)
    (hsw : opts.suppressWhitespaceOnly = true)
    (htrim : jsTrim (paragraphText bp) = jsTrim (paragraphText rp)) :
    diffParagraph bp rp author opts now = rp
    ∧ paragraphText (diffParagraph bp rp author opts now)
        = paragraphText rp := by
  have h := diffParagraph_suppressed bp rp author opts now hsw htrim
  exact ⟨h, by rw [h]⟩

set_option maxRecDepth 1000000 in
/-- C7 witness: `" Hello world"` against `"Hello world"` differ only in
surrounding whitespace, so the revised paragraph is emitted unchanged. -/
theorem suppress_trimmed_equal_witness :
    diffParagraph (paraOf " Hello world") (paraOf "Hello world") "AutoDiff"
      defaultOptions "NOW" = paraOf "Hello world"
    ∧ paragraphText (paraOf "Hello world") = "Hello world" := by
  have h := suppress_trimmed_equal (paraOf " Hello world")
    (paraOf "Hello world") "AutoDiff" defaultOptions "NOW" rfl rfl
  exact ⟨h.1, rfl⟩

/-- C8 counterexample: a `del` wrapper nested inside the content of an
`ins` wrapper survives `stripTrackedChanges` — the claimed "replaces every
node tagged as a wrapper" fails, because the promoted content is not
revisited. -/
theorem stripTrackedChanges_nested_wrapper_cex :
    hasWrapper (stripTrackedChanges nestedWrapperTree) = true
    ∧ hasKeyDeep "del" (stripTrackedChanges nestedWrapperTree) = true :=
  ⟨rfl, rfl⟩

/-- C8 (amended): `stripTrackedChanges` replaces each wrapper it reaches
by that wrapper's inner content without recursing into it, and rebuilds
every other node recursively; hence whenever no wrapper is nested inside
another wrapper's content (`okNesting`), the result is wrapper-free. -/
theorem stripTrackedChanges_wrapper_free (v : JVal)
    (h : okNesting v = true) :
    hasWrapper (stripTrackedChanges v) = false :=
  strip_noWrapper v h

/-- C8 witness: a single non-nested `ins` wrapper is stripped away. -/
theorem stripTrackedChanges_wrapper_free_witness :
    okNesting simpleWrapped = true
    ∧ hasWrapper (stripTrackedChanges simpleWrapped) = false :=
  ⟨rfl, stripTrackedChanges_wrapper_free simpleWrapped rfl⟩

set_option maxRecDepth 1000000 in
/-- C6 evaluation (code bug): at an index where only the revised document
has a paragraph, the output paragraph carries no insertion markup at all
(the built `ins` wrapper is discarded by `.ins.r[0]`), and at an index
where only the base document has one, the output carries a bare `delText`
run without its `del` wrapper. -/
theorem alignment_by_index_drops_wrappers_eval :
    paragraphText ((outputParas
      (docxDiffTracked "NOW" appendInput)).getD 1 .null) = "second"
    ∧ hasTrackedMarkup ((outputParas
      (docxDiffTracked "NOW" appendInput)).getD 1 .null) = false
    ∧ (outputParas (docxDiffTracked "NOW" appendInput)).getD 0 .null
        = paraOf "first"
    ∧ hasKeyDeep "delText" ((outputParas
      (docxDiffTracked "NOW" removeInput)).getD 1 .null) = true
    ∧ hasKeyDeep "del" ((outputParas
      (docxDiffTracked "NOW" removeInput)).getD 1 .null) = false :=
  ⟨rfl, rfl, rfl, rfl, rfl⟩

set_option maxRecDepth 1000000 in
/-- C9 evaluation (code bug): a present-but-malformed
`word/document.xml` records the "using raw fallback" warning inside
`loadXml`, but `docxDiffTracked` then aborts with the missing-part error
instead of substituting a placeholder and continuing; the warning never
reaches a result. -/
theorem malformed_document_aborts_eval :
    docxDiffTracked "NOW" malformedInput
      = .error "Missing word/document.xml in one of the DOCX files"
    ∧ (loadXml ⟨[⟨"word/document.xml", 100, .malformed⟩]⟩
        "word/document.xml" []).2
      = ["Malformed word/document.xml; using raw fallback"] :=
  ⟨rfl, rfl⟩

/-- C10: `limits.maxEntrySize` is never consulted: two runs of
`docxDiffTracked` on the same inputs, author, clock and options differing
only in `maxEntrySize` return identical results (the same error, or the
same buffer and warnings). -/
theorem docxDiffTracked_maxEntrySize_irrelevant (now : String)
    (base revised : Buffer) (author : String) (g : Granularity)
    (sw il itab itb ihf : Bool) (pol : TrackedPolicy)
    (mtb me mes mes' mtp : Nat) :
    docxDiffTracked now
      ⟨base, revised, author, ⟨g, sw, il, itab, itb, ihf, pol,
        ⟨mtb, me, mes, mtp⟩⟩⟩
      = docxDiffTracked now
      ⟨base, revised, author, ⟨g, sw, il, itab, itb, ihf, pol,
        ⟨mtb, me, mes', mtp⟩⟩⟩ := rfl
